import Mathlib

/-!
Formal model of the mzoom fractal explorer (src/main.c).

The view state and its zoom operation are pure field arithmetic on the
wide floating type `real_t`; we embed that arithmetic exactly over `ℚ`
(every constant appearing in the code — 3.0, 0.5, 0.8, 800, 600 — is an
exact rational).  The escape-time kernel `mandelbrot` and the iteration
budget involve `log2l`/`log10l`, so they are embedded over `ℝ` with
`Real.logb`.
-/

namespace MZoom

/-- SCREEN_WIDTH from main.c line 9. -/
def SCREEN_WIDTH : ℤ := 800

/-- SCREEN_HEIGHT from main.c line 10. -/
def SCREEN_HEIGHT : ℤ := 600

/-- ZOOM_FACTOR from main.c line 13 (0.8 as an exact rational). -/
def ZOOM_FACTOR : ℚ := 4 / 5

/-- The view-describing fields of the `State` struct of main.c
(lines 17–32): plane-space extents, center, derived min corner and
per-axis scale factors.  The buffers, flags and lock are modelled
separately where a claim needs them. -/
structure ViewState where
  width : ℚ
  height : ℚ
  center_real : ℚ
  center_imag : ℚ
  real_min : ℚ
  imag_min : ℚ
  scalex : ℚ
  scaley : ℚ
deriving DecidableEq, Repr

/-- The initial view of main.c lines 116–135: width 3, height
width·SCREEN_HEIGHT/SCREEN_WIDTH, center (−0.5, 0), min corner and
scales derived from them. -/
def initState : ViewState :=
  let width : ℚ := 3
  let height : ℚ := width * ((SCREEN_HEIGHT : ℚ) / (SCREEN_WIDTH : ℚ))
  let center_real : ℚ := -(1/2)
  let center_imag : ℚ := 0
  { width := width
    height := height
    center_real := center_real
    center_imag := center_imag
    real_min := center_real - width * (1/2)
    imag_min := center_imag - height * (1/2)
    scalex := width / (SCREEN_WIDTH : ℚ)
    scaley := height / (SCREEN_HEIGHT : ℚ) }

/-- The zoom-to-cursor handler of main.c lines 147–165, as the same
sequence of assignments: extents are multiplied by ZOOM_FACTOR first,
the mouse plane coordinate is computed from the still-unchanged
`real_min`/`imag_min`/`scalex` (note: the code uses `scalex`, not
`scaley`, for the imaginary component, line 153), the center is set to
that coordinate, then min corner and scales are recomputed. -/
def zoomAt (s : ViewState) (px py : ℚ) : ViewState :=
  let width := s.width * ZOOM_FACTOR
  let height := s.height * ZOOM_FACTOR
  let mouse_real := s.real_min + s.scalex * (px + 1/2)
  let mouse_imag := s.imag_min + s.scalex * (((SCREEN_HEIGHT : ℚ) - py - 1) + 1/2)
  let center_real := mouse_real
  let center_imag := mouse_imag
  { width := width
    height := height
    center_real := center_real
    center_imag := center_imag
    real_min := center_real - width * (1/2)
    imag_min := center_imag - height * (1/2)
    scalex := width / (SCREEN_WIDTH : ℚ)
    scaley := height / (SCREEN_HEIGHT : ℚ) }

/-- The derivation invariant of the spec's data model: min corner and
scales agree with center and extents. -/
def derivedInv (s : ViewState) : Prop :=
  s.real_min = s.center_real - s.width / 2 ∧
  s.imag_min = s.center_imag - s.height / 2 ∧
  s.scalex = s.width / (SCREEN_WIDTH : ℚ) ∧
  s.scaley = s.height / (SCREEN_HEIGHT : ℚ)

instance (s : ViewState) : Decidable (derivedInv s) := by
  unfold derivedInv; infer_instance

/-- A view state satisfying the derivation invariant but with
anisotropic scales (scalex = 1, scaley = 2): width 800, height 1200,
center (0,0). -/
def anisoState : ViewState :=
  { width := 800
    height := 1200
    center_real := 0
    center_imag := 0
    real_min := -400
    imag_min := -600
    scalex := 1
    scaley := 2 }

end MZoom

namespace MZoom

/-- The initial state satisfies the derivation invariant. -/
theorem initState_derivedInv : derivedInv initState := by
  refine ⟨?_, ?_, ?_, ?_⟩ <;>
    norm_num [initState, derivedInv, SCREEN_WIDTH, SCREEN_HEIGHT]

/-- The initial state has isotropic scales. -/
theorem initState_scale_eq : initState.scalex = initState.scaley := by
  norm_num [initState, SCREEN_WIDTH, SCREEN_HEIGHT]

/-- Claim C1 (as stated): for every pre-zoom state satisfying the
derivation invariant and every pixel, the new center's imaginary part
equals old imag_min + old **scaley**·(SCREEN_HEIGHT − py − 1 + 0.5).
This fails on the code: the handler uses `scalex` for the imaginary
component (main.c line 153); at the anisotropic state above (which
satisfies the derivation invariant) and pixel (0,0) the two disagree. -/
theorem zoom_center_imag_uses_scaley_false :
    derivedInv anisoState ∧
    (zoomAt anisoState 0 0).center_imag ≠
      anisoState.imag_min +
        anisoState.scaley * (((SCREEN_HEIGHT : ℚ) - 0 - 1) + 1/2) := by
  constructor
  · refine ⟨?_, ?_, ?_, ?_⟩ <;> norm_num [initState, anisoState, zoomAt, derivedInv, SCREEN_WIDTH, SCREEN_HEIGHT, ZOOM_FACTOR]
  · norm_num [initState, anisoState, zoomAt, derivedInv, SCREEN_WIDTH, SCREEN_HEIGHT, ZOOM_FACTOR]

/-- Claim C1 (amended): for every pre-zoom state satisfying the
derivation invariant and every pixel P = (px, py), after the zoom at P
the new center is the plane coordinate of P computed under the pre-zoom
min corner and the pre-zoom `scalex` on both axes:
new center_real = old real_min + old scalex·(px + 0.5) and
new center_imag = old imag_min + old scalex·(SCREEN_HEIGHT − py − 1 + 0.5). -/
theorem zoom_center_is_prezoom_plane_coord (s : ViewState) (px py : ℚ)
    (h : derivedInv s) :
    (zoomAt s px py).center_real = s.real_min + s.scalex * (px + 1/2) ∧
    (zoomAt s px py).center_imag =
      s.imag_min + s.scalex * (((SCREEN_HEIGHT : ℚ) - py - 1) + 1/2) := by
  exact ⟨rfl, rfl⟩

/-- Witness for the amended C1 at the initial state and pixel (0,0). -/
theorem zoom_center_is_prezoom_plane_coord_witness :
    derivedInv initState ∧
    ((zoomAt initState 0 0).center_real =
        initState.real_min + initState.scalex * (0 + 1/2) ∧
      (zoomAt initState 0 0).center_imag =
        initState.imag_min +
          initState.scalex * (((SCREEN_HEIGHT : ℚ) - 0 - 1) + 1/2)) :=
  ⟨initState_derivedInv,
    zoom_center_is_prezoom_plane_coord initState 0 0 initState_derivedInv⟩

/-- Claim C8: from the default view (width 3, center (−0.5, 0)), a
single zoom at the exact center (399.5, 299.5) of the 800×600 screen
leaves the center unchanged and multiplies both extents by the zoom
factor 0.8. -/
theorem zoom_at_center_pixel_keeps_center :
    (zoomAt initState (799/2) (599/2)).center_real = initState.center_real ∧
    (zoomAt initState (799/2) (599/2)).center_imag = initState.center_imag ∧
    (zoomAt initState (799/2) (599/2)).width = ZOOM_FACTOR * initState.width ∧
    (zoomAt initState (799/2) (599/2)).height = ZOOM_FACTOR * initState.height := by
  refine ⟨?_, ?_, ?_, ?_⟩ <;> norm_num [initState, anisoState, zoomAt, derivedInv, SCREEN_WIDTH, SCREEN_HEIGHT, ZOOM_FACTOR]

/-- Plane views reachable by the program: the initial view, closed
under the zoom handler. -/
inductive ReachableView : ViewState → Prop where
  | init : ReachableView initState
  | zoom (s : ViewState) (px py : ℚ) :
      ReachableView s → ReachableView (zoomAt s px py)

/-- Every zoom re-establishes the derivation invariant: min corner and
scales are recomputed from the new center and extents. -/
theorem zoomAt_derivedInv (s : ViewState) (px py : ℚ) :
    derivedInv (zoomAt s px py) := by
  refine ⟨?_, ?_, rfl, rfl⟩
  · show (zoomAt s px py).center_real - s.width * ZOOM_FACTOR * (1/2)
        = (zoomAt s px py).center_real - s.width * ZOOM_FACTOR / 2
    ring
  · show (zoomAt s px py).center_imag - s.height * ZOOM_FACTOR * (1/2)
        = (zoomAt s px py).center_imag - s.height * ZOOM_FACTOR / 2
    ring

/-- Under the derivation invariant a zoom preserves isotropic scales:
both extents are multiplied by the same factor and both scales are
recomputed from them. -/
theorem zoomAt_scale_eq (s : ViewState) (px py : ℚ) (hinv : derivedInv s)
    (h : s.scalex = s.scaley) :
    (zoomAt s px py).scalex = (zoomAt s px py).scaley := by
  obtain ⟨-, -, hx, hy⟩ := hinv
  show s.width * ZOOM_FACTOR / (SCREEN_WIDTH : ℚ)
      = s.height * ZOOM_FACTOR / (SCREEN_HEIGHT : ℚ)
  have hq : s.width / (SCREEN_WIDTH : ℚ) = s.height / (SCREEN_HEIGHT : ℚ) := by
    rw [← hx, ← hy]; exact h
  calc s.width * ZOOM_FACTOR / (SCREEN_WIDTH : ℚ)
      = (s.width / (SCREEN_WIDTH : ℚ)) * ZOOM_FACTOR := by ring
    _ = (s.height / (SCREEN_HEIGHT : ℚ)) * ZOOM_FACTOR := by rw [hq]
    _ = s.height * ZOOM_FACTOR / (SCREEN_HEIGHT : ℚ) := by ring

/-- Claim C9: the implicit isotropic-scale invariant — scalex = scaley
holds for the initial ViewState (height is initialized to
width·SCREEN_HEIGHT/SCREEN_WIDTH) and for every view reachable through
zooms (each zoom multiplies both extents by the same factor and
recomputes both scales from them, along with the derivation invariant);
and under it the handler's use of `scalex` in the mouse's imaginary
plane coordinate produces exactly the value the spec's mapping (which
uses scale_y) prescribes. -/
theorem isotropic_scale_invariant :
    (∀ s : ViewState, ReachableView s → derivedInv s ∧ s.scalex = s.scaley) ∧
    (∀ (s : ViewState) (px py : ℚ), s.scalex = s.scaley →
      (zoomAt s px py).center_imag =
        s.imag_min + s.scaley * (((SCREEN_HEIGHT : ℚ) - py - 1) + 1/2)) := by
  constructor
  · intro s hs
    induction hs with
    | init => exact ⟨initState_derivedInv, initState_scale_eq⟩
    | zoom t px py ht ih =>
        exact ⟨zoomAt_derivedInv t px py, zoomAt_scale_eq t px py ih.1 ih.2⟩
  · intro s px py h
    show s.imag_min + s.scalex * (((SCREEN_HEIGHT : ℚ) - py - 1) + 1/2)
        = s.imag_min + s.scaley * (((SCREEN_HEIGHT : ℚ) - py - 1) + 1/2)
    rw [h]

/-- Witness for C9 at the once-zoomed initial view and pixel (1, 2). -/
theorem isotropic_scale_invariant_witness :
    ReachableView (zoomAt initState 1 2) ∧
    (zoomAt initState 1 2).scalex = (zoomAt initState 1 2).scaley :=
  ⟨ReachableView.zoom initState 1 2 ReachableView.init,
    (isotropic_scale_invariant.1 (zoomAt initState 1 2)
      (ReachableView.zoom initState 1 2 ReachableView.init)).2⟩

end MZoom

namespace MZoom

/-- log2l of main.c, embedded as the real base-2 logarithm. -/
noncomputable def log2 (x : ℝ) : ℝ := Real.logb 2 x

/-- log10l of main.c, embedded as the real base-10 logarithm. -/
noncomputable def log10 (x : ℝ) : ℝ := Real.logb 10 x

/-- The C conversion of a long-double value to `int`: truncation toward
zero. -/
noncomputable def truncToInt (x : ℝ) : ℤ := if 0 ≤ x then ⌊x⌋ else ⌈x⌉

/-- The loop body of `mandelbrot` (main.c lines 42–57), with the
remaining iteration count as fuel and `i` the current loop index: one
step computes the next `z` from the current one, and returns the
smoothed escape count `i + 1 − log2(log2 |z|²)` as soon as the squared
magnitude exceeds 4; exhausted fuel yields the sentinel −1 (line 58). -/
noncomputable def mandelbrotLoop (cr ci zr zi : ℝ) (i : ℕ) : ℕ → ℝ
  | 0 => -1
  | fuel + 1 =>
    let zr_new := zr * zr - zi * zi + cr
    let zi_new := 2 * zr * zi + ci
    let zabs_squared := zr_new * zr_new + zi_new * zi_new
    if zabs_squared > 4 then (i : ℝ) + 1 - log2 (log2 zabs_squared)
    else mandelbrotLoop cr ci zr_new zi_new (i + 1) fuel

/-- `mandelbrot` of main.c lines 34–59: iterate z ← z² + c from z₀ = 0
for at most `max_iterations` steps.  A non-positive `max_iterations`
(C `int`) means the `for` loop body never runs. -/
noncomputable def mandelbrot (cr ci : ℝ) (max_iterations : ℤ) : ℝ :=
  mandelbrotLoop cr ci 0 0 0 max_iterations.toNat

/-- With at least one unit of fuel, a point whose very first iterate
z₁ = c already has squared magnitude above 4 escapes at loop index 0. -/
theorem mandelbrotLoop_escape_first (cr ci : ℝ) (n : ℕ)
    (h : 4 < cr * cr + ci * ci) :
    mandelbrotLoop cr ci 0 0 0 (n + 1) = 1 - log2 (log2 (cr * cr + ci * ci)) := by
  show (let zr_new := (0:ℝ) * 0 - 0 * 0 + cr
        let zi_new := 2 * (0:ℝ) * 0 + ci
        let zabs_squared := zr_new * zr_new + zi_new * zi_new
        if zabs_squared > 4 then ((0:ℕ) : ℝ) + 1 - log2 (log2 zabs_squared)
        else mandelbrotLoop cr ci zr_new zi_new (0 + 1) n)
      = 1 - log2 (log2 (cr * cr + ci * ci))
  have h0 : (0:ℝ) * 0 - 0 * 0 + cr = cr := by ring
  have h1 : 2 * (0:ℝ) * 0 + ci = ci := by ring
  simp only [h0, h1]
  rw [if_pos h]
  norm_num

/-- Claim C3: immediate-escape postcondition — for every (cr, ci) with
cr² + ci² > 4 and every max_iterations N ≥ 1, `mandelbrot` returns
exactly 1 − log2(log2(cr² + ci²)) (escape detected at iteration 0,
since z₁ = c), and the returned value does not depend on N. -/
theorem mandelbrot_immediate_escape (cr ci : ℝ) (N : ℤ) (hN : 1 ≤ N)
    (h : 4 < cr ^ 2 + ci ^ 2) :
    mandelbrot cr ci N = 1 - log2 (log2 (cr ^ 2 + ci ^ 2)) := by
  obtain ⟨n, hn⟩ : ∃ n, N.toNat = n + 1 := ⟨(N - 1).toNat, by omega⟩
  unfold mandelbrot
  rw [hn, pow_two, pow_two] at *
  exact mandelbrotLoop_escape_first cr ci n h

/-- Witness for C3 at c = 3 + 0i with budget N = 1. -/
theorem mandelbrot_immediate_escape_witness :
    (1:ℤ) ≤ 1 ∧ 4 < (3:ℝ) ^ 2 + 0 ^ 2 ∧
    mandelbrot 3 0 1 = 1 - log2 (log2 ((3:ℝ) ^ 2 + 0 ^ 2)) :=
  ⟨le_refl 1, by norm_num,
    mandelbrot_immediate_escape 3 0 1 (le_refl 1) (by norm_num)⟩

/-- Claim C10: the kernel is total — it is a terminating function on all
of its domain — and for every max_iterations ≤ 0 the loop body never
executes, so the sentinel −1 is returned regardless of (cr, ci), even
for points outside the escape radius. -/
theorem mandelbrot_nonpos_budget (cr ci : ℝ) (N : ℤ) (h : N ≤ 0) :
    mandelbrot cr ci N = -1 := by
  unfold mandelbrot
  rw [Int.toNat_of_nonpos h]
  rfl

/-- Witness for C10 at the far-outside point c = 100, budget −3. -/
theorem mandelbrot_nonpos_budget_witness :
    (-3:ℤ) ≤ 0 ∧ mandelbrot 100 0 (-3) = -1 :=
  ⟨by norm_num, mandelbrot_nonpos_budget 100 0 (-3) (by norm_num)⟩

/-- The iteration budget the worker derives at the start of a pass
(main.c line 69): `int max_iterations = 64 + 4 * log10l(1.0L / width)`,
the long-double expression truncated toward zero by the assignment to
`int`.  The code applies no clamp. -/
noncomputable def maxIterations (width : ℝ) : ℤ :=
  truncToInt (64 + 4 * log10 (1 / width))

/-- Truncation toward zero is monotone. -/
theorem truncToInt_mono {x y : ℝ} (h : x ≤ y) : truncToInt x ≤ truncToInt y := by
  unfold truncToInt
  rcases le_or_lt 0 x with hx | hx
  · rw [if_pos hx, if_pos (hx.trans h)]
    exact Int.floor_le_floor h
  · rw [if_neg (not_le.mpr hx)]
    rcases le_or_lt 0 y with hy | hy
    · rw [if_pos hy]
      exact le_trans (Int.ceil_le.mpr (by exact_mod_cast hx.le))
        (Int.floor_nonneg.mpr hy)
    · rw [if_neg (not_le.mpr hy)]
      exact Int.ceil_le_ceil h

/-- Claim C6 (as stated): the derived budget is clamped so that it is
never below 1 for every positive width.  This fails on the code: there
is no clamp in main.c line 69, and at width = 10¹⁶ the raw formula gives
64 + 4·log10(10⁻¹⁶) = 0, which is below 1. -/
theorem maxIterations_floor_false :
    (0:ℝ) < 10 ^ 16 ∧ maxIterations ((10:ℝ) ^ 16) = 0 ∧ ¬ (1 ≤ maxIterations ((10:ℝ) ^ 16)) := by
  have hv : (64:ℝ) + 4 * log10 (1 / (10:ℝ) ^ 16) = 0 := by
    unfold log10
    rw [one_div, Real.logb_inv, Real.logb_pow,
      Real.logb_self_eq_one (by norm_num)]
    norm_num
  have hm : maxIterations ((10:ℝ) ^ 16) = 0 := by
    unfold maxIterations
    rw [hv]
    unfold truncToInt
    norm_num
  exact ⟨by norm_num, hm, by rw [hm]; norm_num⟩

/-- Claim C6 (amended): the worker derives
max_iterations = trunc(64 + 4·log10(1/width)) with no clamping; for
every width with 0 < width < 10 — which covers every width the program
can reach, since widths only shrink from the initial 3 — the derived
value is at least 61, in particular never below 1. -/
theorem maxIterations_ge_one (w : ℝ) (h0 : 0 < w) (h10 : w < 10) :
    1 ≤ maxIterations w := by
  have hlog : -1 < log10 (1 / w) := by
    unfold log10
    have hlt : Real.logb 10 w < 1 := by
      calc Real.logb 10 w < Real.logb 10 10 :=
            Real.logb_lt_logb (by norm_num) h0 h10
        _ = 1 := Real.logb_self_eq_one (by norm_num)
    rw [one_div, Real.logb_inv]
    linarith
  have h60 : (60:ℝ) < 64 + 4 * log10 (1 / w) := by linarith
  unfold maxIterations truncToInt
  rw [if_pos (by linarith : (0:ℝ) ≤ 64 + 4 * log10 (1 / w))]
  have h60f : (60:ℤ) ≤ ⌊(64:ℝ) + 4 * log10 (1 / w)⌋ :=
    Int.le_floor.mpr (by push_cast; linarith)
  omega

/-- Witness for the amended C6 at the initial width 3. -/
theorem maxIterations_ge_one_witness :
    (0:ℝ) < 3 ∧ (3:ℝ) < 10 ∧ 1 ≤ maxIterations 3 :=
  ⟨by norm_num, by norm_num, maxIterations_ge_one 3 (by norm_num) (by norm_num)⟩

/-- Claim C7: adaptive depth is monotone — for view widths w1 > w2 > 0,
the budget derived from the narrower view is at least the budget derived
from the wider one. -/
theorem maxIterations_monotone (w1 w2 : ℝ) (h2 : 0 < w2) (h21 : w2 < w1) :
    maxIterations w1 ≤ maxIterations w2 := by
  unfold maxIterations
  apply truncToInt_mono
  have h1 : 0 < w1 := h2.trans h21
  have hle : log10 (1 / w1) ≤ log10 (1 / w2) := by
    unfold log10
    exact (Real.logb_le_logb (by norm_num) (by positivity) (by positivity)).mpr
      (one_div_le_one_div_of_le h2 h21.le)
  linarith

/-- Witness for C7 at widths 1 and 1/10. -/
theorem maxIterations_monotone_witness :
    (0:ℝ) < 1/10 ∧ (1/10:ℝ) < 1 ∧ maxIterations 1 ≤ maxIterations (1/10) :=
  ⟨by norm_num, by norm_num,
    maxIterations_monotone 1 (1/10) (by norm_num) (by norm_num)⟩

/-- The color written for one pixel, abstracting the external
collaborators: `black` is the fixed background color BLACK, `hsv hue`
is `ColorFromHSV(hue, 0.8f, 0.8f)` with its integer hue argument. -/
inductive MColor where
  | black
  | hsv (hue : ℤ)
deriving DecidableEq, Repr

/-- The per-pixel step of the worker's compute scan (main.c lines
71–84): map pixel (x, y) to a plane coordinate, run the kernel, and
write a HSV color with hue `(int)(nu * 10)` when `nu > -1.0`, else the
background color BLACK. -/
noncomputable def pixelColor (scalex scaley real_min imag_min : ℝ)
    (max_iterations : ℤ) (x y : ℤ) : MColor :=
  let imag := scaley * (((SCREEN_HEIGHT - y - 1 : ℤ) : ℝ) + 1/2) + imag_min
  let real := scalex * ((x : ℝ) + 1/2) + real_min
  let nu := mandelbrot real imag max_iterations
  if nu > -1 then MColor.hsv (truncToInt (nu * 10)) else MColor.black

/-- log2 of a power of two. -/
theorem log2_two_pow (k : ℕ) : log2 ((2:ℝ) ^ k) = k := by
  unfold log2
  rw [Real.logb_pow, Real.logb_self_eq_one (by norm_num), mul_one]

/-- The kernel at c = 256, budget 1: z₁ = 256 has |z₁|² = 2¹⁶, so the
smoothed escape value is 1 − log2(log2 2¹⁶) = 1 − log2 16 = −3. -/
theorem mandelbrot_at_256 : mandelbrot 256 0 1 = -3 := by
  have h : mandelbrot 256 0 1 = 1 - log2 (log2 ((256:ℝ) * 256 + 0 * 0)) := by
    unfold mandelbrot
    exact mandelbrotLoop_escape_first 256 0 0 (by norm_num)
  rw [h]
  have h1 : (256:ℝ) * 256 + 0 * 0 = 2 ^ 16 := by norm_num
  rw [h1, log2_two_pow]
  have h2 : ((16:ℕ):ℝ) = 2 ^ 4 := by norm_num
  rw [h2, log2_two_pow]
  norm_num

/-- Claim C5 (as stated): BLACK is written iff the kernel returned the
sentinel −1.  This fails on the code: the guard is `nu > -1.0`, not
`nu != -1.0`.  At the scan input scalex = scaley = 1,
real_min = 255.5, imag_min = −599.5, budget 1, pixel (0, 0), the plane
coordinate is (256, 0); the kernel escapes at iteration 0 with smoothed
value −3 ≠ −1, yet BLACK is written. -/
theorem background_iff_sentinel_false :
    pixelColor 1 1 (511/2) (-(1199/2)) 1 0 0 = MColor.black ∧
    mandelbrot ((1:ℝ) * (((0:ℤ) : ℝ) + 1/2) + 511/2)
        ((1:ℝ) * (((SCREEN_HEIGHT - 0 - 1 : ℤ) : ℝ) + 1/2) + -(1199/2)) 1 ≠ -1 := by
  have hre : (1:ℝ) * (((0:ℤ) : ℝ) + 1/2) + 511/2 = 256 := by norm_num
  have him : (1:ℝ) * (((SCREEN_HEIGHT - 0 - 1 : ℤ) : ℝ) + 1/2) + -(1199/2) = 0 := by
    norm_num [SCREEN_HEIGHT]
  constructor
  · unfold pixelColor
    dsimp only
    rw [hre, him, mandelbrot_at_256]
    norm_num
  · rw [hre, him, mandelbrot_at_256]
    norm_num

/-- Claim C5 (amended): in the per-pixel step, BLACK is written iff the
kernel's value at the pixel's plane coordinate is ≤ −1 — that is, iff
the kernel returned the sentinel −1 or an escape value that is at most
−1 (possible only for points escaping at iteration 0 with squared
magnitude at least 16); every pixel whose value exceeds −1 is colored
through the HSV collaborator. -/
theorem background_iff_value_le_neg_one
    (scalex scaley real_min imag_min : ℝ) (N : ℤ) (x y : ℤ) :
    pixelColor scalex scaley real_min imag_min N x y = MColor.black ↔
      mandelbrot (scalex * ((x : ℝ) + 1/2) + real_min)
        (scaley * (((SCREEN_HEIGHT - y - 1 : ℤ) : ℝ) + 1/2) + imag_min) N ≤ -1 := by
  unfold pixelColor
  dsimp only
  split_ifs with h
  · exact iff_of_false (by simp) (not_le.mpr h)
  · exact iff_of_true rfl (not_lt.mp h)

/-- The real part of the plane coordinate the worker's scan assigns to
pixel column x (main.c line 75). -/
def planeRe (s : ViewState) (x : ℤ) : ℚ :=
  s.scalex * ((x : ℚ) + 1/2) + s.real_min

/-- The imaginary part of the plane coordinate the worker's scan assigns
to pixel row y (main.c line 72), with the vertical flip
SCREEN_HEIGHT − y − 1. -/
def planeIm (s : ViewState) (y : ℤ) : ℚ :=
  s.scaley * (((SCREEN_HEIGHT - y - 1 : ℤ) : ℚ) + 1/2) + s.imag_min

/-- Claim C4 (as stated): pixel (0, 0) maps to within one pixel's scale
of (real_min, imag_min).  This fails on the code: row y = 0 is the top
row, and the vertical flip sends it next to imag_min + height, not
imag_min; at the initial view the imaginary distance to imag_min is
3597/1600 ≈ 2.25, far more than scaley = 3/800. -/
theorem corner_roundtrip_false :
    derivedInv initState ∧
    ¬ (|planeIm initState 0 - initState.imag_min| ≤ initState.scaley) := by
  refine ⟨initState_derivedInv, ?_⟩
  have h : planeIm initState 0 - initState.imag_min = 3597/1600 := by
    norm_num [planeIm, initState, SCREEN_HEIGHT, SCREEN_WIDTH]
  rw [h, abs_of_pos (by norm_num)]
  norm_num [initState, SCREEN_WIDTH, SCREEN_HEIGHT]

/-- Claim C4 (amended): under the derivation invariant and nonnegative
extents, pixel (0, 0) maps to within one pixel's scale of
(real_min, imag_min + height) — the top-left corner of the view — and
pixel (SCREEN_WIDTH−1, SCREEN_HEIGHT−1) to within one pixel's scale of
(real_min + width, imag_min), component-wise on both axes. -/
theorem corner_roundtrip (s : ViewState) (h : derivedInv s)
    (hw : 0 ≤ s.width) (hh : 0 ≤ s.height) :
    |planeRe s 0 - s.real_min| ≤ s.scalex ∧
    |planeIm s 0 - (s.imag_min + s.height)| ≤ s.scaley ∧
    |planeRe s (SCREEN_WIDTH - 1) - (s.real_min + s.width)| ≤ s.scalex ∧
    |planeIm s (SCREEN_HEIGHT - 1) - s.imag_min| ≤ s.scaley := by
  obtain ⟨hr, hi, hx, hy⟩ := h
  norm_num [SCREEN_WIDTH, SCREEN_HEIGHT] at hx hy
  have hsx : 0 ≤ s.scalex := by rw [hx]; positivity
  have hsy : 0 ≤ s.scaley := by rw [hy]; positivity
  have hwidth : s.width = 800 * s.scalex := by rw [hx]; ring
  have hheight : s.height = 600 * s.scaley := by rw [hy]; ring
  refine ⟨?_, ?_, ?_, ?_⟩
  · have e : planeRe s 0 - s.real_min = s.scalex / 2 := by
      unfold planeRe; push_cast; ring
    rw [e, abs_of_nonneg (by positivity)]
    linarith
  · have e : planeIm s 0 - (s.imag_min + s.height) = -(s.scaley / 2) := by
      unfold planeIm
      rw [hheight]
      norm_num [SCREEN_HEIGHT]
      ring
    rw [e, abs_neg, abs_of_nonneg (by positivity)]
    linarith
  · have e : planeRe s (SCREEN_WIDTH - 1) - (s.real_min + s.width)
        = -(s.scalex / 2) := by
      unfold planeRe
      rw [hwidth]
      norm_num [SCREEN_WIDTH]
      ring
    rw [e, abs_neg, abs_of_nonneg (by positivity)]
    linarith
  · have e : planeIm s (SCREEN_HEIGHT - 1) - s.imag_min = s.scaley / 2 := by
      unfold planeIm
      norm_num [SCREEN_HEIGHT]
      ring
    rw [e, abs_of_nonneg (by positivity)]
    linarith

/-- Witness for the amended C4 at the initial view. -/
theorem corner_roundtrip_witness :
    derivedInv initState ∧ 0 ≤ initState.width ∧ 0 ≤ initState.height ∧
    |planeRe initState 0 - initState.real_min| ≤ initState.scalex :=
  ⟨initState_derivedInv, by norm_num [initState], by norm_num [initState, SCREEN_WIDTH, SCREEN_HEIGHT],
    (corner_roundtrip initState initState_derivedInv (by norm_num [initState])
      (by norm_num [initState, SCREEN_WIDTH, SCREEN_HEIGHT])).1⟩

/-- Phase of the compute worker's state machine (main.c lines 61–101):
idle (polling `dirty`), or computing a pass against the view snapshot it
read when the pass began. -/
inductive Phase where
  | idle
  | computing (snapshot : ViewState)
deriving DecidableEq, Repr

/-- Shared presenter/worker state for the coalescing protocol: the
current ViewState, the `dirty` flag, the worker phase, and the log of
completed passes (most recent first), each recorded with the view it was
computed against. -/
structure Sys where
  view : ViewState
  dirty : Bool
  phase : Phase
  passes : List ViewState
deriving DecidableEq, Repr

/-- State after one presenter frame with a click (main.c lines 147–169):
the view is mutated, and `dirty` is set if not already set — the net
effect on the flag is `true` either way. -/
def afterZoom (s : Sys) (px py : ℚ) : Sys :=
  { view := zoomAt s.view px py
    dirty := true
    phase := s.phase
    passes := s.passes }

/-- State after the worker observes `dirty` and begins a pass, reading
the current view (main.c lines 64–75). -/
def afterBegin (s : Sys) : Sys :=
  { s with phase := Phase.computing s.view }

/-- State after the worker completes the scan of a pass against
snapshot `v`: the pass is recorded and `dirty` is cleared
(main.c lines 86–97). -/
def afterEnd (s : Sys) (v : ViewState) : Sys :=
  { view := s.view
    dirty := false
    phase := Phase.idle
    passes := v :: s.passes }

/-- Interleaving semantics of the presenter loop and the worker state
machine.  A zoom can land at any time; the worker begins a pass only
when idle with `dirty` set, and ends the pass it is computing. -/
inductive Step : Sys → Sys → Prop where
  | zoom (s : Sys) (px py : ℚ) : Step s (afterZoom s px py)
  | beginPass (s : Sys) (hd : s.dirty = true) (hp : s.phase = Phase.idle) :
      Step s (afterBegin s)
  | endPass (s : Sys) (v : ViewState) (hp : s.phase = Phase.computing v) :
      Step s (afterEnd s v)

/-- A quiescent system: default view on screen, worker idle, no work
pending, one pass (the initial one) already recorded. -/
def sysA : Sys :=
  { view := initState
    dirty := false
    phase := Phase.idle
    passes := [initState] }

/-- sysA after a first zoom at pixel (0, 0). -/
def sysB : Sys := afterZoom sysA 0 0

/-- sysB after the worker begins a pass against the once-zoomed view. -/
def sysC : Sys := afterBegin sysB

/-- sysC after a second zoom, at pixel (1, 1), landing mid-pass. -/
def sysD : Sys := afterZoom sysC 1 1

/-- sysD after the worker finishes the in-flight pass: the pass is
recorded against the once-zoomed snapshot and `dirty` is cleared. -/
def sysE : Sys := afterEnd sysD (zoomAt initState 0 0)

/-- Claim C2 (as stated): any two zoom events issued before a pass
completes result in one pass that reads the final ViewState, and no
zoom is left without a subsequent pass reflecting it.  This fails on the
code: in the trace sysA → sysB (zoom 1) → sysC (pass begins) → sysD
(zoom 2 lands mid-pass, `dirty` already true so the store is skipped) →
sysE (pass ends, `dirty` cleared), both zooms precede the pass's
completion, yet the only pass reads the intermediate once-zoomed view,
not the final one, and the system ends idle with `dirty` false: no pass
reflecting the second zoom is pending. -/
theorem coalescing_false :
    Step sysA sysB ∧ Step sysB sysC ∧ Step sysC sysD ∧ Step sysD sysE ∧
    sysE.passes = [zoomAt initState 0 0, initState] ∧
    sysE.view = zoomAt (zoomAt initState 0 0) 1 1 ∧
    zoomAt initState 0 0 ≠ zoomAt (zoomAt initState 0 0) 1 1 ∧
    sysE.dirty = false ∧ sysE.phase = Phase.idle := by
  refine ⟨Step.zoom sysA 0 0, Step.beginPass sysB rfl rfl,
    Step.zoom sysC 1 1, Step.endPass sysD (zoomAt initState 0 0) rfl,
    rfl, rfl, ?_, rfl, rfl⟩
  intro he
  have hw := congrArg ViewState.width he
  norm_num [zoomAt, initState, SCREEN_WIDTH, SCREEN_HEIGHT, ZOOM_FACTOR] at hw

/-- Claim C2 (amended): two zoom events that land while the worker is
still idle (before it begins the pass) are coalesced into exactly one
subsequent pass, and that pass reads the final ViewState produced by the
second zoom — the pass log grows by exactly that one view.  A zoom that
lands after a pass has begun, however, can be coalesced away entirely
(see the counterexample trace): the claim's no-lost-zoom clause holds
only for zooms issued before the pass begins. -/
theorem coalescing_idle_zooms (s : Sys) (hp : s.phase = Phase.idle)
    (p1x p1y p2x p2y : ℚ) :
    Step s (afterZoom s p1x p1y) ∧
    Step (afterZoom s p1x p1y) (afterZoom (afterZoom s p1x p1y) p2x p2y) ∧
    Step (afterZoom (afterZoom s p1x p1y) p2x p2y)
      (afterBegin (afterZoom (afterZoom s p1x p1y) p2x p2y)) ∧
    Step (afterBegin (afterZoom (afterZoom s p1x p1y) p2x p2y))
      (afterEnd (afterBegin (afterZoom (afterZoom s p1x p1y) p2x p2y))
        (zoomAt (zoomAt s.view p1x p1y) p2x p2y)) ∧
    (afterEnd (afterBegin (afterZoom (afterZoom s p1x p1y) p2x p2y))
        (zoomAt (zoomAt s.view p1x p1y) p2x p2y)).passes
      = zoomAt (zoomAt s.view p1x p1y) p2x p2y :: s.passes ∧
    (afterEnd (afterBegin (afterZoom (afterZoom s p1x p1y) p2x p2y))
        (zoomAt (zoomAt s.view p1x p1y) p2x p2y)).view
      = zoomAt (zoomAt s.view p1x p1y) p2x p2y := by
  refine ⟨Step.zoom s p1x p1y, Step.zoom _ p2x p2y,
    Step.beginPass _ rfl ?_, Step.endPass _ _ rfl, rfl, rfl⟩
  exact hp

/-- Witness for the amended C2 from the quiescent system sysA with
zooms at pixels (0, 0) and (1, 1). -/
theorem coalescing_idle_zooms_witness :
    sysA.phase = Phase.idle ∧
    (afterEnd (afterBegin (afterZoom (afterZoom sysA 0 0) 1 1))
        (zoomAt (zoomAt sysA.view 0 0) 1 1)).passes
      = zoomAt (zoomAt sysA.view 0 0) 1 1 :: sysA.passes :=
  ⟨rfl, (coalescing_idle_zooms sysA rfl 0 0 1 1).2.2.2.2.1⟩

end MZoom
